import Mathlib

/-!
Verification of the commit-info module (`asyncgit/src/sync/commits_info.rs`).

Strings are modelled at the character level (`List Char`), matching the
source's use of `str::chars` for truncation: a character is atomic here, so
character-counted truncation can never split a character.
-/

/-- Character-level model of Rust string slices / `String`. -/
abbrev Str := List Char

/-- Raw content-addressed identifier (`git2::Oid`), kept abstract as a value. -/
structure Oid where
  val : Nat
deriving DecidableEq, Repr

/-- Mirrors `pub struct CommitId(Oid)`. -/
structure CommitId where
  oid : Oid
deriving DecidableEq, Repr

/-- Mirrors `CommitId::new`. -/
def CommitId.new (id : Oid) : CommitId := ⟨id⟩

/-- Mirrors `CommitId::get_oid`. -/
def CommitId.get_oid (c : CommitId) : Oid := c.oid

/-- Modelled from the spec: the external repository accessor's resolved commit
object (`git2::Commit`), exposing a possibly absent message, a possibly absent
author display name, a timestamp in seconds, and its own identifier. -/
structure Commit where
  message : Option Str
  authorName : Option Str
  timeSeconds : Int
  id : Oid
deriving DecidableEq, Repr

/-- Mirrors `pub struct CommitInfo`. -/
structure CommitInfo where
  message : Str
  time : Int
  author : Str
  id : CommitId
deriving DecidableEq, Repr

/-- Modelled from the spec: the two error conditions of the external accessor
boundary, repository-inaccessible (step 1) and commit-not-found carrying the
offending identifier (step 2). -/
inductive GitError where
  | repoInaccessible : GitError
  | notFound : Oid → GitError
deriving DecidableEq, Repr

/-- Modelled from the spec: an opened repository handle, a finite store of
commit objects addressed by identifier. -/
structure GitRepo where
  commits : List (Oid × Commit)
deriving DecidableEq, Repr

/-- Modelled from the spec: a repository location, abstracted to whether an
accessor can be obtained from it (and if so, which repository it opens). -/
structure RepoLocation where
  accessible : Option GitRepo
deriving DecidableEq, Repr

/-- Modelled from the spec: `super::utils::repo` (not under `src/`) — obtain a
repository accessor for a location; invalid locations fail with a
repository-inaccessible error. -/
def repo (repo_path : RepoLocation) : Except GitError GitRepo :=
  match repo_path.accessible with
  | some r => .ok r
  | none => .error .repoInaccessible

/-- Modelled from the spec: `git2::Repository::find_commit` — resolve a single
identifier to a commit object, failing with a distinguishable not-found
condition carrying the offending identifier. -/
def find_commit (r : GitRepo) (id : Oid) : Except GitError Commit :=
  match r.commits.find? (fun p => p.1 == id) with
  | some p => .ok p.2
  | none => .error (.notFound id)

/-- Well-formedness of the modelled store: content addressing means a commit
object found under an identifier reports that identifier as its own id. -/
def repoWF (r : GitRepo) : Prop := ∀ p ∈ r.commits, p.2.id = p.1

instance (r : GitRepo) : Decidable (repoWF r) := by
  unfold repoWF; infer_instance

/-- Rust `str::split_inclusive('\n')`: segments of the string, each but
possibly the last ending with the separator, the separator kept. -/
def splitInclusiveNl : Str → List Str
  | [] => []
  | c :: cs =>
    if c = '\n' then [c] :: splitInclusiveNl cs
    else
      match splitInclusiveNl cs with
      | [] => [[c]]
      | l :: ls => (c :: l) :: ls

/-- Rust `str::strip_suffix(c)`: `some` with the suffix removed when the string
ends with `c`, otherwise `none`. -/
def stripSuffixChar (c : Char) (s : Str) : Option Str :=
  match s.getLast? with
  | some d => if d = c then some s.dropLast else none
  | none => none

/-- The per-line map of Rust `str::lines`: strip one trailing `'\n'`, and if
one was stripped, one trailing `'\r'` before it. A carriage return not
immediately followed by a line feed is kept. -/
def trimNewline (l : Str) : Str :=
  match stripSuffixChar '\n' l with
  | none => l
  | some l2 =>
    match stripSuffixChar '\r' l2 with
    | none => l2
    | some l3 => l3

/-- Rust `str::lines()`: split inclusively on `'\n'`, then trim the line
terminator of each segment. -/
def rustLines (s : Str) : List Str := (splitInclusiveNl s).map trimNewline

/-- Mirrors `limit_str`: `s.lines().next()` truncated to `limit` characters
(`chars().take(limit)`), or the empty string when the iterator is empty. -/
def limit_str (s : Str) (limit : Nat) : Str :=
  match (rustLines s).head? with
  | some first => first.take limit
  | none => []

/-- The first line `s.lines().next()` yields, or the empty string when the
lines iterator is empty (only the case `s = []`). -/
def firstLineOf (s : Str) : Str := ((rustLines s).head?).getD []

/-- Mirrors `get_message`: truncated message, or the placeholder when the
commit has no message. -/
def get_message (c : Commit) (message_length_limit : Nat) : Str :=
  match c.message with
  | some msg => limit_str msg message_length_limit
  | none => "<unknown>".data

/-- The closure body of `get_commits_info`: project one resolved commit object
into a `CommitInfo`. -/
def commit_to_info (message_length_limit : Nat) (c : Commit) : CommitInfo :=
  { message := get_message c message_length_limit
    author :=
      match c.authorName with
      | some name => name
      | none => "<unknown>".data
    time := c.timeSeconds
    id := CommitId.new c.id }

/-- Rust `collect::<Result<Vec<_>, _>>()`: all values in order on success,
otherwise the first error in order. -/
def collectResults {ε α : Type} : List (Except ε α) → Except ε (List α)
  | [] => .ok []
  | .error e :: _ => .error e
  | .ok a :: rest =>
    match collectResults rest with
    | .error e => .error e
    | .ok tail2 => .ok (a :: tail2)

/-- Mirrors `get_commits_info`: open the repository, resolve every identifier
(first failure aborts), then project each commit into a `CommitInfo`. -/
def get_commits_info (repo_path : RepoLocation) (ids : List Oid)
    (message_length_limit : Nat) : Except GitError (List CommitInfo) :=
  match repo repo_path with
  | .error e => .error e
  | .ok r =>
    match collectResults (ids.map (fun id => find_commit r id)) with
    | .error e => .error e
    | .ok commits => .ok (commits.map (commit_to_info message_length_limit))

/-- Concrete commit with message "commit1", mirroring the source's test repo. -/
def wCommit1 : Commit :=
  { message := some "commit1".data, authorName := some "name".data,
    timeSeconds := 10, id := ⟨1⟩ }

/-- Concrete commit with message "commit2", mirroring the source's test repo. -/
def wCommit2 : Commit :=
  { message := some "commit2".data, authorName := some "name".data,
    timeSeconds := 20, id := ⟨2⟩ }

/-- Concrete two-commit store used to exercise the batch lookup. -/
def wRepo : GitRepo := ⟨[(⟨1⟩, wCommit1), (⟨2⟩, wCommit2)]⟩

/-- An accessible location opening `wRepo`. -/
def wLoc : RepoLocation := ⟨some wRepo⟩

/-- Expected summary of `wCommit1`. -/
def wInfo1 : CommitInfo :=
  { message := "commit1".data, time := 10, author := "name".data, id := ⟨⟨1⟩⟩ }

/-- Expected summary of `wCommit2`. -/
def wInfo2 : CommitInfo :=
  { message := "commit2".data, time := 20, author := "name".data, id := ⟨⟨2⟩⟩ }

/-- Concrete commit whose message field is absent. -/
def cNoMsg : Commit :=
  { message := none, authorName := some "name".data, timeSeconds := 0, id := ⟨7⟩ }

/-- Store holding only the message-less commit. -/
def noMsgRepo : GitRepo := ⟨[(⟨7⟩, cNoMsg)]⟩

/-- An accessible location opening `noMsgRepo`. -/
def noMsgLoc : RepoLocation := ⟨some noMsgRepo⟩

/-- Summary the code produces for the message-less commit. -/
def noMsgInfo : CommitInfo :=
  { message := "<unknown>".data, time := 0, author := "name".data, id := ⟨⟨7⟩⟩ }

/-- Concrete commit whose recorded author name is the empty string. -/
def cEmptyAuthor : Commit :=
  { message := some "m".data, authorName := some [], timeSeconds := 3, id := ⟨8⟩ }

/-- Store holding only the empty-author commit. -/
def eaRepo : GitRepo := ⟨[(⟨8⟩, cEmptyAuthor)]⟩

/-- An accessible location opening `eaRepo`. -/
def eaLoc : RepoLocation := ⟨some eaRepo⟩

/-- Summary the code produces for the empty-author commit. -/
def eaInfo : CommitInfo :=
  { message := "m".data, time := 3, author := [], id := ⟨⟨8⟩⟩ }

/-! Structural lemmas about first-line extraction. -/

theorem splitInclusiveNl_eq_nil_iff {s : Str} : splitInclusiveNl s = [] ↔ s = [] := by
  constructor
  · intro h
    cases s with
    | nil => rfl
    | cons c cs =>
      unfold splitInclusiveNl at h
      split at h
      · simp at h
      · split at h <;> simp_all
  · intro h
    subst h
    rfl

theorem splitInclusiveNl_no_nl {s : Str} (hne : s ≠ []) (h : '\n' ∉ s) :
    splitInclusiveNl s = [s] := by
  induction s with
  | nil => exact absurd rfl hne
  | cons c cs ih =>
    have hc : ¬(c = '\n') := fun e => h (by simp [e])
    cases hcs : cs with
    | nil => simp [splitInclusiveNl, hc]
    | cons d ds =>
      have ihv : splitInclusiveNl cs = [cs] := by
        refine hcs ▸ ih ?_ ?_
        · rw [hcs]; simp
        · intro m
          exact h (List.mem_cons_of_mem _ (hcs ▸ m))
      rw [← hcs]
      unfold splitInclusiveNl
      rw [if_neg hc, ihv]

theorem splitInclusiveNl_head_append (a b : Str) (h : '\n' ∉ a) :
    (splitInclusiveNl (a ++ '\n' :: b)).head? = some (a ++ ['\n']) := by
  induction a with
  | nil => simp [splitInclusiveNl]
  | cons c a2 ih =>
    have hc : ¬(c = '\n') := fun e => h (by simp [e])
    have ih2 := ih (fun m => h (List.mem_cons_of_mem _ m))
    have hne : splitInclusiveNl (a2 ++ '\n' :: b) ≠ [] := by
      intro hsp
      have := splitInclusiveNl_eq_nil_iff.mp hsp
      simp at this
    cases hsp : splitInclusiveNl (a2 ++ '\n' :: b) with
    | nil => exact absurd hsp hne
    | cons l ls =>
      rw [hsp] at ih2
      simp only [List.head?_cons, Option.some.injEq] at ih2
      show (splitInclusiveNl (c :: (a2 ++ '\n' :: b))).head? = _
      unfold splitInclusiveNl
      rw [if_neg hc, hsp, ih2]
      rfl

theorem stripSuffixChar_concat (c : Char) (a : Str) :
    stripSuffixChar c (a ++ [c]) = some a := by
  simp [stripSuffixChar, List.getLast?_concat, List.dropLast_concat]

theorem stripSuffixChar_eq_some {c : Char} {s t : Str} (h : stripSuffixChar c s = some t) :
    t = s.dropLast := by
  unfold stripSuffixChar at h
  cases hl : s.getLast? with
  | none => rw [hl] at h; simp at h
  | some d =>
    rw [hl] at h
    by_cases hd : d = c
    · simp [hd] at h
      exact h.symm
    · simp only [hd, if_neg, ite_false] at h
      simp [hd] at h

theorem stripSuffixChar_no_mem {c : Char} {s : Str} (h : c ∉ s) :
    stripSuffixChar c s = none := by
  unfold stripSuffixChar
  cases hl : s.getLast? with
  | none => rfl
  | some d =>
    have hd : d ∈ s := List.mem_of_getLast?_eq_some hl
    have hdc : ¬(d = c) := fun e => h (e ▸ hd)
    simp [hdc]

theorem trimNewline_concat_nl (a : Str) :
    trimNewline (a ++ ['\n']) = (stripSuffixChar '\r' a).getD a := by
  unfold trimNewline
  rw [stripSuffixChar_concat]
  cases h : stripSuffixChar '\r' a <;> simp [h]

theorem trimNewline_no_nl {s : Str} (h : '\n' ∉ s) : trimNewline s = s := by
  unfold trimNewline
  rw [stripSuffixChar_no_mem h]

theorem firstLineOf_no_nl {s : Str} (h : '\n' ∉ s) : firstLineOf s = s := by
  cases hs : s with
  | nil => rfl
  | cons c cs =>
    rw [← hs]
    unfold firstLineOf rustLines
    rw [splitInclusiveNl_no_nl (by rw [hs]; simp) h]
    simp [trimNewline_no_nl h]

theorem firstLineOf_append_nl (a b : Str) (h : '\n' ∉ a) :
    firstLineOf (a ++ '\n' :: b) = (stripSuffixChar '\r' a).getD a := by
  unfold firstLineOf rustLines
  rw [List.head?_map, splitInclusiveNl_head_append a b h]
  simp [trimNewline_concat_nl]

theorem exists_first_nl {s : Str} (h : '\n' ∈ s) :
    ∃ a b, s = a ++ '\n' :: b ∧ '\n' ∉ a := by
  induction s with
  | nil => simp at h
  | cons c cs ih =>
    by_cases hc : c = '\n'
    · exact ⟨[], cs, by simp [hc], by simp⟩
    · have hmem : '\n' ∈ cs := by
        rcases List.mem_cons.mp h with h1 | h1
        · exact absurd h1.symm hc
        · exact h1
      obtain ⟨a, b, hab, hna⟩ := ih hmem
      refine ⟨c :: a, b, by simp [hab], ?_⟩
      intro hm
      rcases List.mem_cons.mp hm with h1 | h1
      · exact hc h1.symm
      · exact hna h1

theorem firstLineOf_no_nl_mem (s : Str) : '\n' ∉ firstLineOf s := by
  by_cases h : '\n' ∈ s
  · obtain ⟨a, b, rfl, hna⟩ := exists_first_nl h
    rw [firstLineOf_append_nl a b hna]
    cases hst : stripSuffixChar '\r' a with
    | none => simpa using hna
    | some t =>
      have := stripSuffixChar_eq_some hst
      subst this
      simp only [Option.getD_some]
      intro hm
      exact hna (List.Sublist.mem hm (List.dropLast_sublist a))
  · rw [firstLineOf_no_nl h]
    exact h

theorem limit_str_eq_take (s : Str) (limit : Nat) :
    limit_str s limit = (firstLineOf s).take limit := by
  unfold limit_str firstLineOf
  cases h : (rustLines s).head? <;> simp

/-! Lemmas about the batch collection and the modelled accessor. -/

theorem collectResults_ok {ε α : Type} :
    ∀ {l : List (Except ε α)} {cs : List α},
      collectResults l = .ok cs → l = cs.map Except.ok := by
  intro l
  induction l with
  | nil =>
    intro cs h
    unfold collectResults at h
    cases cs with
    | nil => rfl
    | cons a t => simp at h
  | cons x tl ih =>
    intro cs h
    cases x with
    | error e => simp [collectResults] at h
    | ok a =>
      unfold collectResults at h
      cases hc : collectResults tl with
      | error e => rw [hc] at h; simp at h
      | ok t2 =>
        rw [hc] at h
        simp only [Except.ok.injEq] at h
        subst h
        rw [List.map_cons, ← ih hc]

theorem collectResults_error_mem {ε : Type} {f : Oid → Except ε Commit} {e : ε} :
    ∀ {ids : List Oid},
      collectResults (ids.map f) = .error e → ∃ id, id ∈ ids ∧ f id = .error e := by
  intro ids
  induction ids with
  | nil => intro h; simp [collectResults] at h
  | cons i tl ih =>
    intro h
    rw [List.map_cons] at h
    cases hf : f i with
    | error e0 =>
      rw [hf] at h
      simp only [collectResults, Except.error.injEq] at h
      exact ⟨i, List.mem_cons_self i tl, by rw [hf, h]⟩
    | ok a =>
      rw [hf] at h
      unfold collectResults at h
      cases hc : collectResults (tl.map f) with
      | error e1 =>
        rw [hc] at h
        simp only [Except.error.injEq] at h
        obtain ⟨id, hm, hfe⟩ := ih (h ▸ hc)
        exact ⟨id, List.mem_cons_of_mem _ hm, hfe⟩
      | ok t2 => rw [hc] at h; simp at h

theorem collectResults_append_error {f : Oid → Except GitError Commit}
    {bad : Oid} {e : GitError} (post : List Oid) :
    ∀ pre : List Oid, (∀ id ∈ pre, ∃ c, f id = .ok c) → f bad = .error e →
      collectResults ((pre ++ bad :: post).map f) = .error e := by
  intro pre
  induction pre with
  | nil =>
    intro _ hbad
    rw [List.nil_append, List.map_cons, hbad]
    rfl
  | cons p tl ih =>
    intro hpre hbad
    obtain ⟨c, hc⟩ := hpre p (List.mem_cons_self p tl)
    rw [List.cons_append, List.map_cons, hc]
    unfold collectResults
    rw [ih (fun id hm => hpre id (List.mem_cons_of_mem _ hm)) hbad]

theorem find_commit_ok_id {r : GitRepo} {id : Oid} {c : Commit}
    (hwf : repoWF r) (h : find_commit r id = .ok c) : c.id = id := by
  unfold find_commit at h
  cases hf : r.commits.find? (fun p => p.1 == id) with
  | none => rw [hf] at h; simp at h
  | some p =>
    rw [hf] at h
    simp only [Except.ok.injEq] at h
    have h1 := List.find?_some (p := fun q : Oid × Commit => q.1 == id) hf
    simp only [beq_iff_eq] at h1
    have h2 : p ∈ r.commits := List.mem_of_find?_eq_some hf
    have h3 := hwf p h2
    rw [← h, h3, h1]

theorem find_commit_error_eq {r : GitRepo} {id : Oid} {e : GitError}
    (h : find_commit r id = .error e) : e = .notFound id := by
  unfold find_commit at h
  cases hf : r.commits.find? (fun p => p.1 == id) with
  | none =>
    rw [hf] at h
    simp only [Except.error.injEq] at h
    exact h.symm
  | some p => rw [hf] at h; simp at h

theorem get_commits_info_ok_elim {loc : RepoLocation} {r : GitRepo} {ids : List Oid}
    {limit : Nat} {res : List CommitInfo}
    (hacc : loc.accessible = some r)
    (hok : get_commits_info loc ids limit = .ok res) :
    ∃ cs : List Commit, ids.map (fun id => find_commit r id) = cs.map Except.ok ∧
      res = cs.map (commit_to_info limit) := by
  unfold get_commits_info repo at hok
  rw [hacc] at hok
  dsimp only at hok
  cases hc : collectResults (ids.map fun id => find_commit r id) with
  | error e => rw [hc] at hok; simp at hok
  | ok cs =>
    rw [hc] at hok
    simp only [Except.ok.injEq] at hok
    exact ⟨cs, collectResults_ok hc, hok.symm⟩

theorem mem_get_commits_info {loc : RepoLocation} {r : GitRepo} {ids : List Oid}
    {limit : Nat} {res : List CommitInfo}
    (hacc : loc.accessible = some r)
    (hok : get_commits_info loc ids limit = .ok res) :
    ∀ ci ∈ res, ∃ id c, id ∈ ids ∧ find_commit r id = .ok c ∧
      ci = commit_to_info limit c := by
  obtain ⟨cs, hmap, hres⟩ := get_commits_info_ok_elim hacc hok
  subst hres
  intro ci hci
  obtain ⟨c, hc, rfl⟩ := List.mem_map.mp hci
  obtain ⟨i, hgi⟩ := List.mem_iff_getElem?.mp hc
  have hpt := congrArg (fun l => l[i]?) hmap
  simp only [List.getElem?_map] at hpt
  rw [hgi] at hpt
  cases hid : ids[i]? with
  | none => rw [hid] at hpt; simp at hpt
  | some id0 =>
    rw [hid] at hpt
    simp at hpt
    exact ⟨id0, c, List.mem_iff_getElem?.mpr ⟨i, hid⟩, hpt, rfl⟩


/-! Theorems settling the claims. -/

/-- Claim C1: on success with an accessible, well-formed content-addressed
store, the batch result has the same length as the input identifier sequence
and the i-th summary's id is the i-th input identifier, order and cardinality
preserved, duplicates included. -/
theorem get_commits_info_preserves_ids (loc : RepoLocation) (r : GitRepo)
    (ids : List Oid) (limit : Nat) (res : List CommitInfo)
    (hacc : loc.accessible = some r) (hwf : repoWF r)
    (hok : get_commits_info loc ids limit = .ok res) :
    res.length = ids.length ∧
      ∀ i : Nat, (res[i]?.map fun ci => ci.id.oid) = ids[i]? := by
  obtain ⟨cs, hmap, hres⟩ := get_commits_info_ok_elim hacc hok
  have hlen : ids.length = cs.length := by
    have h := congrArg List.length hmap
    simpa using h
  subst hres
  refine ⟨by simp [hlen], ?_⟩
  intro i
  rw [List.getElem?_map]
  have hpt := congrArg (fun l => l[i]?) hmap
  simp only [List.getElem?_map] at hpt
  by_cases hi : i < ids.length
  · have hcslt : i < cs.length := hlen ▸ hi
    have hid : ids[i]? = some ids[i] := List.getElem?_eq_getElem hi
    have hci := List.getElem?_eq_getElem hcslt
    rw [hid, hci] at hpt
    simp only [Option.map_some', Option.some.injEq] at hpt
    have hcid := find_commit_ok_id hwf hpt
    rw [hci, hid]
    simp [commit_to_info, CommitId.new, hcid]
  · have h1 : ids[i]? = none := List.getElem?_eq_none (Nat.le_of_not_lt hi)
    have h2 : cs[i]? = none := List.getElem?_eq_none (by omega)
    rw [h1, h2]
    rfl

/-- Claim C1 witness: the two-commit store queried in the order [2, 1] with
limit 50 gives two summaries echoing the queried identifiers in order. -/
theorem get_commits_info_preserves_ids_witness :
    ([wInfo2, wInfo1] : List CommitInfo).length = ([⟨2⟩, ⟨1⟩] : List Oid).length ∧
      (([wInfo2, wInfo1] : List CommitInfo)[0]?.map fun ci => ci.id.oid) =
        ([⟨2⟩, ⟨1⟩] : List Oid)[0]? :=
  ⟨(get_commits_info_preserves_ids wLoc wRepo [⟨2⟩, ⟨1⟩] 50 [wInfo2, wInfo1] rfl
      (by decide) rfl).1,
    (get_commits_info_preserves_ids wLoc wRepo [⟨2⟩, ⟨1⟩] 50 [wInfo2, wInfo1] rfl
      (by decide) rfl).2 0⟩

/-- Claim C2: a batch containing an unresolvable identifier fails as a whole:
the first resolution failure in input order is the returned error and no
summaries are produced, even for identifiers resolving before it. -/
theorem get_commits_info_first_failure (loc : RepoLocation) (r : GitRepo)
    (pre post : List Oid) (bad : Oid) (limit : Nat)
    (hacc : loc.accessible = some r)
    (hpre : ∀ id ∈ pre, ∃ c, find_commit r id = .ok c)
    (hbad : find_commit r bad = .error (.notFound bad)) :
    get_commits_info loc (pre ++ bad :: post) limit = .error (.notFound bad) := by
  unfold get_commits_info repo
  rw [hacc]
  dsimp only
  rw [collectResults_append_error post pre hpre hbad]

/-- Claim C2 witness: querying [1, 3, 2] where 3 is absent fails with
not-found 3 although 1 resolves before it. -/
theorem get_commits_info_first_failure_witness :
    get_commits_info wLoc ([⟨1⟩] ++ Oid.mk 3 :: [⟨2⟩]) 50 =
      .error (.notFound ⟨3⟩) :=
  get_commits_info_first_failure wLoc wRepo [⟨1⟩] [⟨2⟩] ⟨3⟩ 50 rfl
    (fun id hm => by
      simp only [List.mem_singleton] at hm
      subst hm
      exact ⟨wCommit1, rfl⟩)
    rfl

/-- Claim C3: `limit_str` is first-line extraction followed by truncation to
at most `limit` characters counted by character: the result is exactly the
first `min limit (length of first line)` characters, limit 0 gives the empty
string, and a first line of at most `limit` characters is returned unmodified.
Characters are atomic in this model, so no character is ever split. -/
theorem limit_str_first_line_truncation (s : Str) (limit k : Nat) :
    limit_str s limit = (firstLineOf s).take limit ∧
      (limit_str s limit).length = min limit (firstLineOf s).length ∧
      limit_str s 0 = [] ∧
      limit_str s ((firstLineOf s).length + k) = firstLineOf s := by
  refine ⟨limit_str_eq_take s limit, ?_, ?_, ?_⟩
  · simp [limit_str_eq_take, List.length_take]
  · rw [limit_str_eq_take, List.take_zero]
  · rw [limit_str_eq_take]
    exact List.take_of_length_le (Nat.le_add_right _ _)

/-- Claim C4 counterexample: a commit with no message yields the 9-character
placeholder "<unknown>" untruncated even with limit 0, so the message-length
invariant fails as stated. -/
theorem message_limit_counterexample :
    get_commits_info noMsgLoc [⟨7⟩] 0 = .ok [noMsgInfo] ∧
      ¬(noMsgInfo.message.length ≤ 0) :=
  ⟨rfl, by decide⟩

/-- Claim C4 (amended): every summary message contains no newline character;
it has at most `limit` characters whenever the commit has a message, and is
the fixed placeholder "<unknown>" (which may exceed the limit) when the commit
has no message. -/
theorem get_commits_info_message_bounds (loc : RepoLocation) (r : GitRepo)
    (ids : List Oid) (limit : Nat) (res : List CommitInfo)
    (hacc : loc.accessible = some r)
    (hok : get_commits_info loc ids limit = .ok res) :
    ∀ ci ∈ res, '\n' ∉ ci.message ∧
      (ci.message.length ≤ limit ∨ ci.message = "<unknown>".data) := by
  intro ci hci
  obtain ⟨id, c, _, _, rfl⟩ := mem_get_commits_info hacc hok ci hci
  simp only [commit_to_info]
  cases hm : c.message with
  | none =>
    simp only [get_message, hm]
    exact ⟨by decide, Or.inr (by simp)⟩
  | some m =>
    simp only [get_message, hm]
    constructor
    · rw [limit_str_eq_take]
      intro hmem
      exact firstLineOf_no_nl_mem m (List.Sublist.mem hmem (List.take_sublist _ _))
    · left
      rw [limit_str_eq_take]
      exact List.length_take_le _ _

/-- Claim C4 (amended) witness: the message-less commit with limit 0 produces
the placeholder, which contains no newline. -/
theorem get_commits_info_message_bounds_witness :
    '\n' ∉ noMsgInfo.message ∧
      (noMsgInfo.message.length ≤ 0 ∨ noMsgInfo.message = "<unknown>".data) :=
  get_commits_info_message_bounds noMsgLoc noMsgRepo [⟨7⟩] 0 [noMsgInfo] rfl rfl
    noMsgInfo (List.mem_singleton.mpr rfl)

/-- Claim C5: the placeholder "<unknown>" is the summary message exactly for a
commit with no message field (the branch taken when the field is absent); an
existing message is always passed to `limit_str`, and an existing empty
message yields the empty string — not the placeholder — for every limit. -/
theorem get_message_placeholder_rule (limit : Nat) (m : Str) (a : Option Str)
    (t : Int) (i : Oid) :
    get_message ⟨none, a, t, i⟩ limit = "<unknown>".data ∧
      get_message ⟨some [], a, t, i⟩ limit = [] ∧
      get_message ⟨some m, a, t, i⟩ limit = limit_str m limit ∧
      ([] : Str) ≠ "<unknown>".data :=
  ⟨rfl, rfl, rfl, by decide⟩

/-- Claim C6 counterexample: a commit whose recorded author name is the empty
string yields a summary whose author field is empty, so the author field is
not always non-empty. -/
theorem author_empty_counterexample :
    (get_commits_info eaLoc [⟨8⟩] 10).map (fun res => res.map fun ci => ci.author) =
      .ok [[]] :=
  rfl

/-- Claim C6 (amended): every summary's author is the recorded author display
name when one is recorded and the sentinel "<unknown>" when none is; it is
empty only when the recorded name is itself the empty string. -/
theorem get_commits_info_author_rule (loc : RepoLocation) (r : GitRepo)
    (ids : List Oid) (limit : Nat) (res : List CommitInfo)
    (hacc : loc.accessible = some r)
    (hok : get_commits_info loc ids limit = .ok res) :
    ∀ ci ∈ res, ∃ (id : Oid) (c : Commit), id ∈ ids ∧ find_commit r id = .ok c ∧
      ((c.authorName = none ∧ ci.author = "<unknown>".data) ∨
        (∃ n : Str, c.authorName = some n ∧ ci.author = n)) := by
  intro ci hci
  obtain ⟨id, c, hmem, hfc, rfl⟩ := mem_get_commits_info hacc hok ci hci
  refine ⟨id, c, hmem, hfc, ?_⟩
  cases hn : c.authorName with
  | none =>
    left
    exact ⟨rfl, by simp [commit_to_info, hn]⟩
  | some n =>
    right
    exact ⟨n, rfl, by simp [commit_to_info, hn]⟩

/-- Claim C6 (amended) witness: the empty-author commit resolves and its
summary author equals its recorded (empty) name. -/
theorem get_commits_info_author_rule_witness :
    ∃ (id : Oid) (c : Commit), id ∈ ([⟨8⟩] : List Oid) ∧
      find_commit eaRepo id = .ok c ∧
      ((c.authorName = none ∧ eaInfo.author = "<unknown>".data) ∨
        (∃ n : Str, c.authorName = some n ∧ eaInfo.author = n)) :=
  get_commits_info_author_rule eaLoc eaRepo [⟨8⟩] 10 [eaInfo] rfl rfl eaInfo
    (List.mem_singleton.mpr rfl)

/-- Claim C7: when the batch fails on an accessible repository, the error is a
not-found error naming an identifier of the input sequence that fails to
resolve. -/
theorem get_commits_info_error_names_id (loc : RepoLocation) (r : GitRepo)
    (ids : List Oid) (limit : Nat) (e : GitError)
    (hacc : loc.accessible = some r)
    (herr : get_commits_info loc ids limit = .error e) :
    ∃ id : Oid, id ∈ ids ∧ find_commit r id = .error (.notFound id) ∧
      e = GitError.notFound id := by
  unfold get_commits_info repo at herr
  rw [hacc] at herr
  dsimp only at herr
  cases hc : collectResults (ids.map fun id => find_commit r id) with
  | ok cs => rw [hc] at herr; simp at herr
  | error e2 =>
    rw [hc] at herr
    simp only [Except.error.injEq] at herr
    subst herr
    obtain ⟨id, hmem, hfe⟩ := collectResults_error_mem hc
    have hne := find_commit_error_eq hfe
    exact ⟨id, hmem, hne ▸ hfe, hne⟩

/-- Claim C7 witness: failing on [1, 3] yields an error naming identifier 3. -/
theorem get_commits_info_error_names_id_witness :
    ∃ id : Oid, id ∈ ([⟨1⟩, ⟨3⟩] : List Oid) ∧
      find_commit wRepo id = .error (.notFound id) ∧
      GitError.notFound ⟨3⟩ = GitError.notFound id :=
  get_commits_info_error_names_id wLoc wRepo [⟨1⟩, ⟨3⟩] 50 (.notFound ⟨3⟩) rfl rfl

/-- Claim C8: an inaccessible repository location fails the whole batch with
the repository-inaccessible error for every identifier sequence and limit —
the result does not depend on the identifiers, so no resolution takes place. -/
theorem get_commits_info_inaccessible (loc : RepoLocation) (ids : List Oid)
    (limit : Nat) (h : loc.accessible = none) :
    get_commits_info loc ids limit = .error .repoInaccessible := by
  unfold get_commits_info repo
  rw [h]

/-- Claim C8 witness: a location opening nothing fails with the
repository-inaccessible error. -/
theorem get_commits_info_inaccessible_witness :
    get_commits_info ⟨none⟩ [⟨1⟩] 5 = .error .repoInaccessible :=
  get_commits_info_inaccessible ⟨none⟩ [⟨1⟩] 5 rfl

/-- Claim C9: truncation is idempotent — re-truncating an already truncated
message with an equal or larger limit returns it unchanged. -/
theorem limit_str_idempotent (s : Str) (l1 l2 : Nat) (h : l1 ≤ l2) :
    limit_str (limit_str s l1) l2 = limit_str s l1 := by
  have hnl : '\n' ∉ limit_str s l1 := by
    rw [limit_str_eq_take]
    intro hm
    exact firstLineOf_no_nl_mem s (List.Sublist.mem hm (List.take_sublist _ _))
  rw [limit_str_eq_take (limit_str s l1) l2, firstLineOf_no_nl hnl]
  apply List.take_of_length_le
  have hlen : (limit_str s l1).length ≤ l1 := by
    rw [limit_str_eq_take]
    exact List.length_take_le _ _
  omega

/-- Claim C9 witness: truncating "abc" to 2 and then to 5 equals truncating
to 2 once. -/
theorem limit_str_idempotent_witness :
    limit_str (limit_str "abc".data 2) 5 = limit_str "abc".data 2 :=
  limit_str_idempotent "abc".data 2 5 (by decide)

/-- Claim C10 counterexample: the message "ab\r\r\nx" has its first line
terminated by a CRLF pair, yet the summary message is "ab\r", which ends with
a carriage return: only the single carriage return of the pair is excluded. -/
theorem limit_str_cr_counterexample :
    limit_str "ab\r\r\nx".data 50 = "ab\r".data ∧
      ("ab\r".data : Str).getLast? = some '\r' :=
  ⟨by decide, by decide⟩

/-- Claim C10 (amended): a first line terminated by a CRLF pair loses the line
feed and the single carriage return immediately preceding it (but no other
carriage return), and a message beginning with "\r\n" or "\n" yields the empty
summary message for every limit. -/
theorem limit_str_crlf (a b : Str) (limit : Nat) (h : '\n' ∉ a) :
    limit_str (a ++ '\r' :: '\n' :: b) limit = a.take limit ∧
      limit_str ('\r' :: '\n' :: b) limit = [] ∧
      limit_str ('\n' :: b) limit = [] := by
  have hra : '\n' ∉ a ++ ['\r'] := by
    intro hm
    rcases List.mem_append.mp hm with h1 | h1
    · exact h h1
    · simp at h1
  refine ⟨?_, ?_, ?_⟩
  · rw [limit_str_eq_take]
    have he : a ++ '\r' :: '\n' :: b = (a ++ ['\r']) ++ '\n' :: b := by simp
    rw [he, firstLineOf_append_nl _ _ hra, stripSuffixChar_concat]
    simp
  · rw [limit_str_eq_take]
    have he : ('\r' :: '\n' :: b : Str) = ['\r'] ++ '\n' :: b := rfl
    rw [he, firstLineOf_append_nl ['\r'] b (by decide)]
    simp [stripSuffixChar]
  · rw [limit_str_eq_take]
    have he : ('\n' :: b : Str) = [] ++ '\n' :: b := rfl
    rw [he, firstLineOf_append_nl [] b (by simp)]
    simp [stripSuffixChar]

/-- Claim C10 (amended) witness: "ab\r\nx" has first line "ab" for limit 50,
and messages beginning with a line break give empty summaries. -/
theorem limit_str_crlf_witness :
    limit_str ("ab".data ++ '\r' :: '\n' :: "x".data) 50 = "ab".data.take 50 ∧
      limit_str ('\r' :: '\n' :: "x".data) 50 = [] ∧
      limit_str ('\n' :: "x".data) 50 = [] :=
  limit_str_crlf "ab".data "x".data 50 (by decide)
